import Mathlib

/-
  Verification of the Arborist random-forest core against its specification.

  Shallow embedding conventions:
  * C `double` values are modelled as exact rationals (no rounding arithmetic
    is performed by the functions verified here, only sums, divisions and
    comparisons, which are modelled exactly).
  * C arrays are modelled as total functions from their index type.
  * The few declarations whose defining code lives in headers absent from the
    repository snapshot are modelled from the specification text; each such
    definition carries a doc comment starting `Modelled from the spec:`.
-/

namespace Arborist

/-- Largest finite value of a C `double` (DBL_MAX from cfloat), as an exact
rational: 1.7976931348623157e308. -/
def DBL_MAX : ℚ := 17976931348623157 * 10 ^ 292

/-- Split-signature node (splitsig.h / splitsig.cc): the record of a candidate
split for one (node, predictor) slot of the current level.  Fields as used by
splitsig.cc: predIdx, setIdx (negative for numeric splits), sCount,
lhIdxCount, info. -/
structure SSNode where
  predIdx : Nat
  setIdx : Int
  sCount : Nat
  lhIdxCount : Nat
  info : ℚ
deriving DecidableEq

/-- Embeds SSNode::SSNode(): the default constructor sets info to -DBL_MAX and
leaves the remaining fields unspecified; the unspecified fields are modelled
as zero. -/
def SSNode.initNode : SSNode := ⟨0, 0, 0, 0, -DBL_MAX⟩

/-- Embeds SplitSig::LevelInit: allocates nPred * splitCount
default-constructed SSNodes.  The level matrix is modelled as a total
function from flat slot offset to SSNode, every slot default-constructed. -/
def SplitSig.levelInit : Nat → SSNode := fun _ => SSNode.initNode

/-- Modelled from the spec: SplitSig::Lookup is declared in splitsig.h, which
is not among the repository files.  The spec fixes the level matrix layout as
slot (p, n) = p * splitCount + n, predictor-major; this agrees with the
offset levelIdx + predIdx * splitCount walked by SplitSig::ArgMax in
splitsig.cc. -/
def SplitSig.lookupSlot (splitCount bottomIdx predIdx : Nat) : Nat :=
  predIdx * splitCount + bottomIdx

/-- Embeds SplitSig::Write: builds an SSNode from the arguments and stores it
at Lookup(bottomIdx, predIdx). -/
def SplitSig.Write (levelSS : Nat → SSNode) (splitCount bottomIdx predIdx : Nat)
    (setIdx : Int) (sCount lhIdxCount : Nat) (info : ℚ) : Nat → SSNode :=
  Function.update levelSS (SplitSig.lookupSlot splitCount bottomIdx predIdx)
    ⟨predIdx, setIdx, sCount, lhIdxCount, info⟩

/-- Embeds SplitSig::ArgMax: walks predictors 0 .. nPred-1 at slot offset
levelIdx + predIdx * splitCount, recording a new argmax exactly when the
candidate's info strictly exceeds the running gainMax.  The source returns a
pointer to the winning slot (null when none); the winning predictor index is
returned here instead. -/
def SplitSig.ArgMax (levelSS : Nat → SSNode) (splitCount nPred levelIdx : Nat)
    (gainMax : ℚ) : Option Nat :=
  ((List.range nPred).foldl
    (fun (acc : Option Nat × ℚ) predIdx =>
      let candSS := levelSS (levelIdx + predIdx * splitCount)
      if acc.2 < candSS.info then (some predIdx, candSS.info) else acc)
    (none, gainMax)).1

/-- Accumulator state of the ArgMax scan after the first n predictors. -/
def amFoldRes (f : Nat → ℚ) (gainMax0 : ℚ) (n : Nat) : Option Nat × ℚ :=
  (List.range n).foldl
    (fun (acc : Option Nat × ℚ) p => if acc.2 < f p then (some p, f p) else acc)
    (none, gainMax0)

theorem amFoldRes_inv (f : Nat → ℚ) (gainMax0 : ℚ) (n : Nat) :
    (amFoldRes f gainMax0 n = (none, gainMax0) ∧ ∀ p < n, f p ≤ gainMax0) ∨
    (∃ p, amFoldRes f gainMax0 n = (some p, f p) ∧ p < n ∧ gainMax0 < f p ∧
      (∀ q < n, f q ≤ f p) ∧ ∀ q < p, f q < f p) := by
  induction n with
  | zero => exact Or.inl ⟨rfl, fun p hp => absurd hp (Nat.not_lt_zero p)⟩
  | succ n ih =>
    have hstep : amFoldRes f gainMax0 (n + 1) =
        (if (amFoldRes f gainMax0 n).2 < f n then (some n, f n)
         else amFoldRes f gainMax0 n) := by
      unfold amFoldRes
      rw [List.range_succ, List.foldl_append, List.foldl_cons, List.foldl_nil]
    rcases ih with ⟨hres, hall⟩ | ⟨p, hres, hpn, hgt, hmax, hstrict⟩
    · rw [hres] at hstep
      by_cases hcmp : gainMax0 < f n
      · refine Or.inr ⟨n, ?_, Nat.lt_succ_self n, hcmp, ?_, ?_⟩
        · simpa [hcmp] using hstep
        · intro q hq
          rcases Nat.lt_succ_iff_lt_or_eq.mp hq with hq | hq
          · exact le_of_lt (lt_of_le_of_lt (hall q hq) hcmp)
          · simp [hq]
        · intro q hq
          exact lt_of_le_of_lt (hall q hq) hcmp
      · refine Or.inl ⟨by simpa [hcmp] using hstep, ?_⟩
        intro p hp
        rcases Nat.lt_succ_iff_lt_or_eq.mp hp with hp | hp
        · exact hall p hp
        · subst hp; exact le_of_not_gt hcmp
    · rw [hres] at hstep
      by_cases hcmp : f p < f n
      · refine Or.inr ⟨n, ?_, Nat.lt_succ_self n, lt_trans hgt hcmp, ?_, ?_⟩
        · simpa [hcmp] using hstep
        · intro q hq
          rcases Nat.lt_succ_iff_lt_or_eq.mp hq with hq | hq
          · exact le_of_lt (lt_of_le_of_lt (hmax q hq) hcmp)
          · simp [hq]
        · intro q hq
          exact lt_of_le_of_lt (hmax q hq) hcmp
      · refine Or.inr ⟨p, by simpa [hcmp] using hstep, Nat.lt_succ_of_lt hpn, hgt, ?_,
          hstrict⟩
        intro q hq
        rcases Nat.lt_succ_iff_lt_or_eq.mp hq with hq | hq
        · exact hmax q hq
        · subst hq; exact le_of_not_gt hcmp

/-- ArgMax is the first projection of the accumulator scan over the per-slot
info values. -/
theorem argMax_eq_amFoldRes (levelSS : Nat → SSNode) (splitCount nPred levelIdx : Nat)
    (gainMax : ℚ) :
    SplitSig.ArgMax levelSS splitCount nPred levelIdx gainMax =
      (amFoldRes (fun p => (levelSS (levelIdx + p * splitCount)).info) gainMax nPred).1 :=
  rfl

theorem argMax_none_iff (levelSS : Nat → SSNode) (splitCount nPred levelIdx : Nat)
    (gainMax : ℚ) :
    SplitSig.ArgMax levelSS splitCount nPred levelIdx gainMax = none ↔
      ∀ p < nPred, (levelSS (levelIdx + p * splitCount)).info ≤ gainMax := by
  rw [argMax_eq_amFoldRes]
  rcases amFoldRes_inv (fun p => (levelSS (levelIdx + p * splitCount)).info) gainMax nPred
    with ⟨hres, hall⟩ | ⟨p, hres, hpn, hgt, _, _⟩
  · rw [hres]
    exact iff_of_true rfl hall
  · rw [hres]
    exact iff_of_false (by simp) (fun hall => absurd (hall p hpn) (not_le_of_lt hgt))

theorem argMax_some_spec (levelSS : Nat → SSNode) (splitCount nPred levelIdx : Nat)
    (gainMax : ℚ) (p : Nat)
    (hsome : SplitSig.ArgMax levelSS splitCount nPred levelIdx gainMax = some p) :
    p < nPred ∧ gainMax < (levelSS (levelIdx + p * splitCount)).info ∧
    (∀ q < nPred,
      (levelSS (levelIdx + q * splitCount)).info ≤ (levelSS (levelIdx + p * splitCount)).info) ∧
    ∀ q < p, (levelSS (levelIdx + q * splitCount)).info < (levelSS (levelIdx + p * splitCount)).info := by
  rw [argMax_eq_amFoldRes] at hsome
  rcases amFoldRes_inv (fun p => (levelSS (levelIdx + p * splitCount)).info) gainMax nPred
    with ⟨hres, _⟩ | ⟨r, hres, hrn, hgt, hmax, hstrict⟩
  · rw [hres] at hsome; cases hsome
  · rw [hres] at hsome
    have hpr : r = p := by simpa using hsome
    subst hpr
    exact ⟨hrn, hgt, hmax, hstrict⟩

/-- C3: SplitSig::ArgMax(n, gainMax) returns the slot whose info is greatest
and strictly greater than gainMax — none when no slot's info exceeds
gainMax — and when several slots tie for the greatest info, the lowest
predictor index is returned. -/
theorem splitSig_argMax_spec (levelSS : Nat → SSNode) (splitCount nPred levelIdx : Nat)
    (gainMax : ℚ) :
    (SplitSig.ArgMax levelSS splitCount nPred levelIdx gainMax = none ↔
      ∀ p < nPred, (levelSS (levelIdx + p * splitCount)).info ≤ gainMax) ∧
    ∀ p, SplitSig.ArgMax levelSS splitCount nPred levelIdx gainMax = some p →
      p < nPred ∧
      gainMax < (levelSS (levelIdx + p * splitCount)).info ∧
      (∀ q < nPred,
        (levelSS (levelIdx + q * splitCount)).info ≤
          (levelSS (levelIdx + p * splitCount)).info) ∧
      ∀ q < nPred,
        (levelSS (levelIdx + q * splitCount)).info =
          (levelSS (levelIdx + p * splitCount)).info → p ≤ q := by
  refine ⟨argMax_none_iff levelSS splitCount nPred levelIdx gainMax, ?_⟩
  intro p hsome
  obtain ⟨hpn, hgt, hmax, hstrict⟩ :=
    argMax_some_spec levelSS splitCount nPred levelIdx gainMax p hsome
  refine ⟨hpn, hgt, hmax, ?_⟩
  intro q _ heq
  by_contra hlt
  exact absurd heq (ne_of_lt (hstrict q (Nat.lt_of_not_le (fun h => hlt (by omega)))))

/-- Arguments of one SplitSig::Write call. -/
structure WriteArgs where
  bottomIdx : Nat
  predIdx : Nat
  setIdx : Int
  sCount : Nat
  lhIdxCount : Nat
  info : ℚ

/-- A sequence of SplitSig::Write calls applied to a level matrix. -/
def applyWrites (splitCount : Nat) (ws : List WriteArgs) (m : Nat → SSNode) :
    Nat → SSNode :=
  ws.foldl
    (fun acc w =>
      SplitSig.Write acc splitCount w.bottomIdx w.predIdx w.setIdx w.sCount w.lhIdxCount w.info)
    m

theorem applyWrites_untouched (splitCount : Nat) (ws : List WriteArgs)
    (m : Nat → SSNode) (s : Nat)
    (hs : ∀ w ∈ ws, SplitSig.lookupSlot splitCount w.bottomIdx w.predIdx ≠ s) :
    applyWrites splitCount ws m s = m s := by
  induction ws generalizing m with
  | nil => rfl
  | cons w ws ih =>
    have hstep : applyWrites splitCount (w :: ws) m =
        applyWrites splitCount ws
          (SplitSig.Write m splitCount w.bottomIdx w.predIdx w.setIdx w.sCount w.lhIdxCount w.info) :=
      rfl
    rw [hstep, ih _ (fun v hv => hs v (List.mem_cons_of_mem w hv))]
    unfold SplitSig.Write
    exact Function.update_noteq (fun h => hs w (List.mem_cons_self w ws) h.symm) _ m

theorem neg_DBL_MAX_lt_zero : -DBL_MAX < 0 := by
  unfold DBL_MAX
  norm_num

/-- C4: immediately after SplitSig::LevelInit every slot of the level matrix
has info equal to -DBL_MAX, and consequently, for any nonnegative threshold,
ArgMax never returns a slot that has not been overwritten by some
SplitSig::Write. -/
theorem splitSig_levelInit_unwritten (splitCount nPred levelIdx : Nat) (gainMax : ℚ)
    (ws : List WriteArgs) (hgain : 0 ≤ gainMax) :
    (∀ i, (SplitSig.levelInit i).info = -DBL_MAX) ∧
    ∀ p, SplitSig.ArgMax (applyWrites splitCount ws SplitSig.levelInit)
          splitCount nPred levelIdx gainMax = some p →
      ∃ w ∈ ws, SplitSig.lookupSlot splitCount w.bottomIdx w.predIdx =
        levelIdx + p * splitCount := by
  refine ⟨fun _ => rfl, ?_⟩
  intro p hsome
  obtain ⟨_, hgt, _, _⟩ :=
    argMax_some_spec (applyWrites splitCount ws SplitSig.levelInit)
      splitCount nPred levelIdx gainMax p hsome
  by_contra hnone
  push_neg at hnone
  have huntouched :
      applyWrites splitCount ws SplitSig.levelInit (levelIdx + p * splitCount) =
        SplitSig.levelInit (levelIdx + p * splitCount) :=
    applyWrites_untouched splitCount ws SplitSig.levelInit _ hnone
  rw [huntouched] at hgt
  have : (SplitSig.levelInit (levelIdx + p * splitCount)).info = -DBL_MAX := rfl
  rw [this] at hgt
  exact absurd (lt_trans (lt_of_le_of_lt hgain hgt) neg_DBL_MAX_lt_zero) (lt_irrefl 0)

/-- Witness for C4 at a concrete input: one write of info 5 into the single
slot of a 1 x 1 level matrix; ArgMax at threshold 0 returns that slot, which
the theorem traces back to the write. -/
theorem splitSig_levelInit_unwritten_witness :
    (∀ i, (SplitSig.levelInit i).info = -DBL_MAX) ∧
    ∀ p, SplitSig.ArgMax (applyWrites 1 [⟨0, 0, 0, 0, 0, 5⟩] SplitSig.levelInit)
          1 1 0 0 = some p →
      ∃ w ∈ [(⟨0, 0, 0, 0, 0, 5⟩ : WriteArgs)],
        SplitSig.lookupSlot 1 w.bottomIdx w.predIdx = 0 + p * 1 :=
  splitSig_levelInit_unwritten 1 1 0 0 [⟨0, 0, 0, 0, 0, 5⟩] (le_refl 0)

/-! ### In-bag bitmap: DecTree::SetBagRow and DecTree::InBag (dectree.cc) -/

/-- Number of bits in a C `unsigned int`: 8 * sizeof(unsigned int). -/
def slotBits : Nat := 32

/-- Modelled from the spec: DecTree::BagCoord is declared in dectree.h, which
is not among the repository files.  The spec fixes the forest-wide in-bag
bitmap as nTree x nRow compressed bits, word-packed with tree as the faster
index; the flat bit index of (treeNum, row) is therefore row * nTree + treeNum,
returned split into a word offset and a bit position within the word. -/
def BagCoord (nTree treeNum row : Nat) : Nat × Nat :=
  ((row * nTree + treeNum) / slotBits, (row * nTree + treeNum) % slotBits)

/-- Bit of the packed word vector at flat bit index b. -/
def bagBit (inBag : Nat → Nat) (b : Nat) : Bool :=
  (inBag (b / slotBits)).testBit (b % slotBits)

/-- Embeds DecTree::InBag: reads the word at BagCoord(treeNum, row) and tests
(val & (1 << bit)) > 0. -/
def InBag (inBag : Nat → Nat) (nTree treeNum row : Nat) : Bool :=
  decide (0 < inBag (BagCoord nTree treeNum row).1 &&&
    (1 <<< (BagCoord nTree treeNum row).2))

/-- One in-bag write of DecTree::SetBagRow: val = inBag[off]; val |= (1 << bit);
inBag[off] = val. -/
def setRowBit (nTree treeNum row : Nat) (inBag : Nat → Nat) : Nat → Nat :=
  Function.update inBag (BagCoord nTree treeNum row).1
    (inBag (BagCoord nTree treeNum row).1 |||
      (1 <<< (BagCoord nTree treeNum row).2))

/-- Inner loop of DecTree::SetBagRow over one word slot of the pre-tree's
row-packed in-bag vector: baseRow = slot * slotBits, supRow = min nRow
(baseRow + slotBits), and the mask for row is 1 << (row - baseRow) (the mask
starts at 1 and shifts once per row). -/
def setBagSlot (nTree treeNum : Nat) (ptInBag : Nat → Nat) (nRow slot : Nat)
    (inBag : Nat → Nat) : Nat → Nat :=
  (List.range' (slot * slotBits) (min nRow (slot * slotBits + slotBits) - slot * slotBits)).foldl
    (fun ib row =>
      if 0 < ptInBag slot &&& (1 <<< (row - slot * slotBits)) then
        setRowBit nTree treeNum row ib
      else ib)
    inBag

/-- Embeds DecTree::SetBagRow: walks the pre-tree's in-bag words slot by slot
(baseRow advancing by slotBits while below nRow) and, for every row whose bit
is set there, sets the forest-wide bit for (treeNum, row). -/
def SetBagRow (nTree nRow : Nat) (ptInBag : Nat → Nat) (treeNum : Nat)
    (inBag0 : Nat → Nat) : Nat → Nat :=
  (List.range ((nRow + slotBits - 1) / slotBits)).foldl
    (fun inBag slot => setBagSlot nTree treeNum ptInBag nRow slot inBag)
    inBag0

theorem and_one_shiftLeft_pos (x k : Nat) : 0 < x &&& (1 <<< k) ↔ x.testBit k := by
  rw [Nat.one_shiftLeft, Nat.and_two_pow]
  cases h : x.testBit k
  · simp
  · simp [Nat.two_pow_pos]

theorem InBag_eq_bagBit (inBag : Nat → Nat) (nTree treeNum row : Nat) :
    InBag inBag nTree treeNum row = bagBit inBag (row * nTree + treeNum) := by
  unfold InBag bagBit BagCoord
  by_cases h : 0 < inBag ((row * nTree + treeNum) / slotBits) &&&
      (1 <<< ((row * nTree + treeNum) % slotBits))
  · simp [h, (and_one_shiftLeft_pos _ _).mp h]
  · simp only [h, decide_False]
    exact (Bool.eq_false_iff.mpr (fun htb =>
      h ((and_one_shiftLeft_pos _ _).mpr htb))).symm

theorem bagBit_setRowBit (inBag : Nat → Nat) (nTree treeNum row b : Nat) :
    bagBit (setRowBit nTree treeNum row inBag) b =
      (bagBit inBag b || decide (b = row * nTree + treeNum)) := by
  unfold bagBit setRowBit BagCoord
  by_cases hoff : b / slotBits = (row * nTree + treeNum) / slotBits
  · rw [hoff, Function.update_same, Nat.testBit_lor, Nat.one_shiftLeft,
      Nat.testBit_two_pow]
    by_cases hb : b = row * nTree + treeNum
    · subst hb
      simp
    · have hmod : ¬ ((row * nTree + treeNum) % slotBits = b % slotBits) := by
        intro h
        apply hb
        have h1 := Nat.div_add_mod b slotBits
        have h2 := Nat.div_add_mod (row * nTree + treeNum) slotBits
        simp only [slotBits] at h h1 h2 hoff
        omega
      rw [← hoff]
      simp [hmod, hb]
  · rw [Function.update_noteq hoff]
    have hb : ¬ (b = row * nTree + treeNum) := fun h => hoff (by rw [h])
    simp [hb]

theorem bagBit_foldRows (nTree treeNum : Nat) (P : Nat → Prop) [DecidablePred P]
    (L : List Nat) (ib : Nat → Nat) (b : Nat) :
    bagBit (L.foldl
        (fun acc row => if P row then setRowBit nTree treeNum row acc else acc) ib) b =
      (bagBit ib b ||
        L.any (fun row => decide (P row) && decide (b = row * nTree + treeNum))) := by
  induction L generalizing ib with
  | nil => simp
  | cons r L ih =>
    rw [List.foldl_cons, ih, List.any_cons]
    by_cases hc : P r
    · simp [hc, bagBit_setRowBit, Bool.or_assoc]
    · simp [hc]

theorem bagBit_setBagSlot (nTree treeNum : Nat) (ptInBag : Nat → Nat)
    (nRow slot : Nat) (ib : Nat → Nat) (b : Nat) :
    bagBit (setBagSlot nTree treeNum ptInBag nRow slot ib) b =
      (bagBit ib b ||
        (List.range' (slot * slotBits)
            (min nRow (slot * slotBits + slotBits) - slot * slotBits)).any
          (fun row => decide (0 < ptInBag slot &&& (1 <<< (row - slot * slotBits))) &&
            decide (b = row * nTree + treeNum))) :=
  bagBit_foldRows nTree treeNum
    (fun row => 0 < ptInBag slot &&& (1 <<< (row - slot * slotBits))) _ ib b

theorem bagBit_SetBagRow (nTree nRow : Nat) (ptInBag : Nat → Nat) (treeNum : Nat)
    (ib : Nat → Nat) (b : Nat) :
    bagBit (SetBagRow nTree nRow ptInBag treeNum ib) b =
      (bagBit ib b ||
        (List.range ((nRow + slotBits - 1) / slotBits)).any (fun slot =>
          (List.range' (slot * slotBits)
              (min nRow (slot * slotBits + slotBits) - slot * slotBits)).any
            (fun row => decide (0 < ptInBag slot &&& (1 <<< (row - slot * slotBits))) &&
              decide (b = row * nTree + treeNum)))) := by
  unfold SetBagRow
  generalize List.range ((nRow + slotBits - 1) / slotBits) = slots
  induction slots generalizing ib with
  | nil => simp
  | cons s slots ih =>
    rw [List.foldl_cons, ih, List.any_cons, bagBit_setBagSlot, Bool.or_assoc]

/-- C7: round-trip of the in-bag bitmap.  Starting from a state in which tree
treeNum's bits are all clear (as left by DecTree::FactoryTrain), after
DecTree::SetBagRow(ptInBag, treeNum) the query DecTree::InBag(treeNum, r)
returns true if and only if bit r was set in the pre-tree's row-packed ptInBag
vector, for every r < nRow. -/
theorem dectree_bagRow_roundTrip (nTree nRow : Nat) (ptInBag : Nat → Nat)
    (treeNum : Nat) (inBag0 : Nat → Nat) (r : Nat)
    (hT : 0 < nTree) (hr : r < nRow)
    (hclear : ∀ q < nRow, InBag inBag0 nTree treeNum q = false) :
    InBag (SetBagRow nTree nRow ptInBag treeNum inBag0) nTree treeNum r =
      (ptInBag (r / slotBits)).testBit (r % slotBits) := by
  rw [InBag_eq_bagBit, bagBit_SetBagRow]
  have h0 : bagBit inBag0 (r * nTree + treeNum) = false := by
    rw [← InBag_eq_bagBit]
    exact hclear r hr
  rw [h0, Bool.false_or]
  cases htb : (ptInBag (r / slotBits)).testBit (r % slotBits)
  · rw [List.any_eq_false]
    intro slot hslot
    intro hcontra
    rw [List.any_eq_true] at hcontra
    obtain ⟨row, hrow, hc⟩ := hcontra
    rw [Bool.and_eq_true, decide_eq_true_eq, decide_eq_true_eq] at hc
    obtain ⟨hpos, heq⟩ := hc
    have hrowr : row = r :=
      (Nat.eq_of_mul_eq_mul_right hT (by omega)).symm
    subst hrowr
    rw [List.mem_range'_1] at hrow
    have hslotr : slot = row / slotBits := by
      simp only [slotBits] at hrow ⊢
      omega
    subst hslotr
    have hsub : row - row / slotBits * slotBits = row % slotBits := by
      simp only [slotBits]
      omega
    rw [hsub, and_one_shiftLeft_pos] at hpos
    rw [hpos] at htb
    cases htb
  · rw [List.any_eq_true]
    refine ⟨r / slotBits, ?_, ?_⟩
    · rw [List.mem_range]
      simp only [slotBits]
      omega
    · rw [List.any_eq_true]
      refine ⟨r, ?_, ?_⟩
      · rw [List.mem_range'_1]
        simp only [slotBits]
        omega
      · rw [Bool.and_eq_true, decide_eq_true_eq, decide_eq_true_eq]
        refine ⟨?_, rfl⟩
        have hsub : r - r / slotBits * slotBits = r % slotBits := by
          simp only [slotBits]
          omega
        rw [hsub, and_one_shiftLeft_pos]
        exact htb

/-- Witness for C7 at a concrete input: one tree, one row, row 0 in-bag in the
pre-tree vector; after SetBagRow the forest-wide query reads the bit back. -/
theorem dectree_bagRow_roundTrip_witness :
    InBag (SetBagRow 1 1 (fun _ => 1) 0 (fun _ => 0)) 1 0 0 =
      ((fun _ => 1) (0 / slotBits) : Nat).testBit (0 % slotBits) :=
  dectree_bagRow_roundTrip 1 1 (fun _ => 1) 0 (fun _ => 0) 0
    (by decide) (by decide) (by decide)

/-! ### Prediction walker for numeric regression (dectree.cc) -/

/-- Tree-relative predictor array of tree tc: preds = predForest + tOrig. -/
def treePreds (predForest : Int → Int) (treeOriginForest : Nat → Int) (tc : Nat) :
    Int → Int :=
  fun i => predForest (treeOriginForest tc + i)

/-- Tree-relative split-value array of tree tc: splitVal = numForest + tOrig. -/
def treeSplitVal (numForest : Int → ℚ) (treeOriginForest : Nat → Int) (tc : Nat) :
    Int → ℚ :=
  fun i => numForest (treeOriginForest tc + i)

/-- Tree-relative bump array of tree tc: bumps = bumpForest + tOrig. -/
def treeBumps (bumpForest : Int → Int) (treeOriginForest : Nat → Int) (tc : Nat) :
    Int → Int :=
  fun i => bumpForest (treeOriginForest tc + i)

/-- Transposed numeric row slice of DecTree::PredictRowNumReg:
rowT[i] = numBase[row + i * nRow] (the column-major observation matrix). -/
def rowSliceNum (numBase : Nat → ℚ) (nRow row : Nat) : Int → ℚ :=
  fun i => numBase (row + i.toNat * nRow)

/-- Embeds the while loop of DecTree::PredictRowNumReg, with explicit fuel in
place of the source's unbounded while: while bumps[idx] != 0, step to
idx + bump when rowT[preds[idx]] <= splitVal[idx], else idx + bump + 1. -/
def walkNum (preds : Int → Int) (splitVal : Int → ℚ) (bumps : Int → Int)
    (rowT : Int → ℚ) : Nat → Int → Int
  | 0, idx => idx
  | fuel + 1, idx =>
      if bumps idx = 0 then idx
      else
        walkNum preds splitVal bumps rowT fuel
          (idx + (if rowT (preds idx) ≤ splitVal idx then bumps idx else bumps idx + 1))

/-- Embeds DecTree::PredictRowNumReg for one row: per tree tc, the in-bag
sentinel -1 under useBag, otherwise the walk from tree-relative index 0. -/
def PredictRowNumReg (predForest : Int → Int) (numForest : Int → ℚ)
    (bumpForest : Int → Int) (treeOriginForest : Nat → Int) (inBag : Nat → Nat)
    (nTree : Nat) (numBase : Nat → ℚ) (nRow row : Nat) (useBag : Bool)
    (fuel : Nat) : Nat → Int :=
  fun tc =>
    if useBag && InBag inBag nTree tc row then -1
    else
      walkNum (treePreds predForest treeOriginForest tc)
        (treeSplitVal numForest treeOriginForest tc)
        (treeBumps bumpForest treeOriginForest tc)
        (rowSliceNum numBase nRow row) fuel 0

/-- One step of the walk as the specification states it: at a nonterminal
(lhBump nonzero), move by lhBump when x is at most the split value and by
lhBump + 1 otherwise. -/
def NumStep (preds : Int → Int) (splitVal : Int → ℚ) (bumps : Int → Int)
    (rowT : Int → ℚ) (idx idx2 : Int) : Prop :=
  bumps idx ≠ 0 ∧
    idx2 = idx + (if rowT (preds idx) ≤ splitVal idx then bumps idx else bumps idx + 1)

theorem walkNum_reaches (preds : Int → Int) (splitVal : Int → ℚ)
    (bumps : Int → Int) (rowT : Int → ℚ) (fuel : Nat) (idx : Int) :
    Relation.ReflTransGen (NumStep preds splitVal bumps rowT) idx
      (walkNum preds splitVal bumps rowT fuel idx) := by
  induction fuel generalizing idx with
  | zero => exact Relation.ReflTransGen.refl
  | succ fuel ih =>
    unfold walkNum
    by_cases h : bumps idx = 0
    · rw [if_pos h]
    · rw [if_neg h]
      exact Relation.ReflTransGen.head ⟨h, rfl⟩ (ih _)

theorem numStep_deterministic (preds : Int → Int) (splitVal : Int → ℚ)
    (bumps : Int → Int) (rowT : Int → ℚ) (idx a b : Int)
    (ha : NumStep preds splitVal bumps rowT idx a)
    (hb : NumStep preds splitVal bumps rowT idx b) : a = b := by
  rw [ha.2, hb.2]

theorem numWalk_terminal_unique (preds : Int → Int) (splitVal : Int → ℚ)
    (bumps : Int → Int) (rowT : Int → ℚ) (a L1 L2 : Int)
    (h1 : Relation.ReflTransGen (NumStep preds splitVal bumps rowT) a L1)
    (hL1 : bumps L1 = 0)
    (h2 : Relation.ReflTransGen (NumStep preds splitVal bumps rowT) a L2)
    (hL2 : bumps L2 = 0) : L1 = L2 := by
  induction h1 using Relation.ReflTransGen.head_induction_on with
  | refl =>
    rcases h2.cases_head with h | ⟨c, hstep, _⟩
    · exact h
    · exact absurd hL1 hstep.1
  | @head x x1 hstep htail ih =>
    rcases h2.cases_head with h | ⟨c, hstep2, htail2⟩
    · rw [← h] at hL2
      exact absurd hL2 hstep.1
    · have hc : c = x1 :=
        numStep_deterministic preds splitVal bumps rowT x c x1 hstep2 hstep
      rw [hc] at htail2
      exact ih htail2

/-- C1: numeric regression prediction: if useBag is set and row is in-bag for
tree tc, the walker emits the sentinel -1 without walking; otherwise the
emitted leaf index is reached from the tree's origin (tree-relative index 0)
by the specified stepping — idx += lhBump[idx] when x <= splitVal[idx], else
idx += lhBump[idx] + 1, while lhBump[idx] is nonzero — and, whenever the walk
has in fact exited the loop (the emitted index is terminal), it is the unique
terminal index so reachable. -/
theorem dectree_predictRowNumReg_walk (predForest : Int → Int) (numForest : Int → ℚ)
    (bumpForest : Int → Int) (treeOriginForest : Nat → Int) (inBag : Nat → Nat)
    (nTree : Nat) (numBase : Nat → ℚ) (nRow row : Nat) (useBag : Bool)
    (fuel : Nat) (tc : Nat) :
    ((useBag && InBag inBag nTree tc row) = true →
      PredictRowNumReg predForest numForest bumpForest treeOriginForest inBag
        nTree numBase nRow row useBag fuel tc = -1) ∧
    ((useBag && InBag inBag nTree tc row) = false →
      Relation.ReflTransGen
        (NumStep (treePreds predForest treeOriginForest tc)
          (treeSplitVal numForest treeOriginForest tc)
          (treeBumps bumpForest treeOriginForest tc)
          (rowSliceNum numBase nRow row))
        0
        (PredictRowNumReg predForest numForest bumpForest treeOriginForest inBag
          nTree numBase nRow row useBag fuel tc) ∧
      (treeBumps bumpForest treeOriginForest tc
          (PredictRowNumReg predForest numForest bumpForest treeOriginForest inBag
            nTree numBase nRow row useBag fuel tc) = 0 →
        ∀ L : Int,
          Relation.ReflTransGen
            (NumStep (treePreds predForest treeOriginForest tc)
              (treeSplitVal numForest treeOriginForest tc)
              (treeBumps bumpForest treeOriginForest tc)
              (rowSliceNum numBase nRow row)) 0 L →
          treeBumps bumpForest treeOriginForest tc L = 0 →
          L = PredictRowNumReg predForest numForest bumpForest treeOriginForest inBag
            nTree numBase nRow row useBag fuel tc)) := by
  constructor
  · intro hbag
    unfold PredictRowNumReg
    rw [hbag]
    rfl
  · intro hbag
    have hleaf : PredictRowNumReg predForest numForest bumpForest treeOriginForest inBag
        nTree numBase nRow row useBag fuel tc =
        walkNum (treePreds predForest treeOriginForest tc)
          (treeSplitVal numForest treeOriginForest tc)
          (treeBumps bumpForest treeOriginForest tc)
          (rowSliceNum numBase nRow row) fuel 0 := by
      unfold PredictRowNumReg
      rw [hbag]
      rfl
    rw [hleaf]
    refine ⟨walkNum_reaches _ _ _ _ fuel 0, ?_⟩
    intro hterm L hreach hL
    exact numWalk_terminal_unique _ _ _ _ 0 L _ hreach hL
      (walkNum_reaches _ _ _ _ fuel 0) hterm

/-! ### Regression aggregation across trees (DecTree::PredictAcrossNumReg) -/

/-- Embeds the per-row aggregation loop of DecTree::PredictAcrossNumReg: sums
the leaf scores over the trees whose leaf is non-sentinel and counts them as
treesSeen, then computes score / treesSeen with no guard.  The double
division 0.0/0 the source performs when treesSeen = 0 yields NaN; NaN is
modelled as none. -/
def PredictAcrossNumRegRow (predForest : Int → Int) (numForest : Int → ℚ)
    (bumpForest : Int → Int) (treeOriginForest : Nat → Int) (inBag : Nat → Nat)
    (nTree : Nat) (numBase : Nat → ℚ) (nRow row : Nat) (useBag : Bool)
    (fuel : Nat) : Option ℚ :=
  let leaves := PredictRowNumReg predForest numForest bumpForest treeOriginForest
    inBag nTree numBase nRow row useBag fuel
  let acc := (List.range nTree).foldl
    (fun (acc : ℚ × Nat) tc =>
      if 0 ≤ leaves tc then
        (acc.1 + numForest (treeOriginForest tc + leaves tc), acc.2 + 1)
      else acc)
    (0, 0)
  if acc.2 = 0 then none else some (acc.1 / (acc.2 : ℚ))

/-- Concrete forest for the C2 failing input: a single tree consisting of one
leaf node, over a single row that is in-bag for that tree. -/
def c2InBag : Nat → Nat := SetBagRow 1 1 (fun _ => 1) 0 (fun _ => 0)

/-- C2: the regression aggregation is NOT guarded against division by zero.
At the concrete failing input — one tree, one row, useBag set, the row in-bag
for the only tree — the walker emits the sentinel -1 for the tree, treesSeen
is 0, and the row's output is the unguarded 0.0/0 division, i.e. NaN
(modelled none), not a sentinel value. -/
theorem dectree_predictAcrossNumReg_divzero :
    PredictRowNumReg (fun _ => 0) (fun _ => 0) (fun _ => 0) (fun _ => 0) c2InBag
        1 (fun _ => 0) 1 0 true 4 0 = -1 ∧
    PredictAcrossNumRegRow (fun _ => 0) (fun _ => 0) (fun _ => 0) (fun _ => 0)
        c2InBag 1 (fun _ => 0) 1 0 true 4 = none := by
  constructor
  · rfl
  · rfl

/-! ### Pre-tree nodes and consumption (pretree.cc) -/

/-- Pre-tree node (PTNode): id, left-hand child id (negative marks terminal),
splitting predictor, splitting value and information gain, as used by
pretree.cc. -/
structure PTNode where
  id : Int
  lhId : Int
  predIdx : Int
  splitVal : ℚ
  info : ℚ
deriving DecidableEq

/-- Default-constructed PTNode (new PTNode[] leaves the fields indeterminate;
modelled as zeros). -/
instance : Inhabited PTNode := ⟨⟨0, 0, 0, 0, 0⟩⟩

/-- Embeds PTNode::Consume: a split (lhId > 0) writes its predictor, splitting
value and bump lhId - id; a leaf keeps the score already written into the
numeric slot and writes bump 0. -/
def PTNode.Consume (nd : PTNode) (pred : Int) (num : ℚ) : Int × ℚ × Int :=
  if 0 < nd.lhId then (nd.predIdx, nd.splitVal, nd.lhId - nd.id)
  else (pred, num, 0)

/-- Embeds PreTree::ConsumeNodes: the response-specific Scores virtual call
first fills the output vectors (modelled by the given scoreVal / scoreNum),
then every pre-tree index in [0, treeHeight) consumes into the packed
triple. -/
def ConsumeNodes (nodeVec : Nat → PTNode) (treeHeight : Nat)
    (scoreVal : Nat → Int) (scoreNum : Nat → ℚ) : List (Int × ℚ × Int) :=
  (List.range treeHeight).map fun idx => (nodeVec idx).Consume (scoreVal idx) (scoreNum idx)

theorem consumeNodes_getD (nodeVec : Nat → PTNode) (treeHeight : Nat)
    (scoreVal : Nat → Int) (scoreNum : Nat → ℚ) (i : Nat) (hi : i < treeHeight) :
    (ConsumeNodes nodeVec treeHeight scoreVal scoreNum).getD i (0, 0, 0) =
      (nodeVec i).Consume (scoreVal i) (scoreNum i) := by
  unfold ConsumeNodes
  rw [List.getD_eq_getElem?_getD, List.getElem?_map, List.getElem?_range hi]
  rfl

/-- C5: for every pre-tree index i below treeHeight, ConsumeNodes writes the
packed triple so that a nonterminal (lhId > 0) yields
(predIdx[i], splitVal[i], lhBump[i] = lhId - id) and a leaf yields bump 0
with its score already in the numeric slot; hence lhBump[i] = 0 iff node i is
terminal (using the pre-tree invariant id < lhId for nonterminals). -/
theorem pretree_consumeNodes_spec (nodeVec : Nat → PTNode) (treeHeight : Nat)
    (scoreVal : Nat → Int) (scoreNum : Nat → ℚ) (i : Nat) (hi : i < treeHeight)
    (hinv : 0 < (nodeVec i).lhId → (nodeVec i).id < (nodeVec i).lhId) :
    (0 < (nodeVec i).lhId →
      (ConsumeNodes nodeVec treeHeight scoreVal scoreNum).getD i (0, 0, 0) =
        ((nodeVec i).predIdx, (nodeVec i).splitVal, (nodeVec i).lhId - (nodeVec i).id)) ∧
    (¬ 0 < (nodeVec i).lhId →
      (ConsumeNodes nodeVec treeHeight scoreVal scoreNum).getD i (0, 0, 0) =
        (scoreVal i, scoreNum i, 0)) ∧
    (((ConsumeNodes nodeVec treeHeight scoreVal scoreNum).getD i (0, 0, 0)).2.2 = 0 ↔
      ¬ 0 < (nodeVec i).lhId) := by
  rw [consumeNodes_getD nodeVec treeHeight scoreVal scoreNum i hi]
  unfold PTNode.Consume
  by_cases h : 0 < (nodeVec i).lhId
  · rw [if_pos h]
    refine ⟨fun _ => rfl, fun hc => absurd h hc, ?_⟩
    have hne : (nodeVec i).lhId - (nodeVec i).id ≠ 0 := by
      have := hinv h
      omega
    simp [hne, h]
  · rw [if_neg h]
    exact ⟨fun hc => absurd hc h, fun _ => rfl, by simp [h]⟩

/-- Witness for C5 at a concrete input: a two-node pre-tree whose root splits
to child 1 and whose node 1 is a leaf; index 0 consumes to bump 1. -/
theorem pretree_consumeNodes_spec_witness :
    (0 < ((fun i => if i = 0 then (⟨0, 1, 3, 7, 0⟩ : PTNode) else ⟨1, -1, 0, 0, 0⟩) 0).lhId →
      (ConsumeNodes (fun i => if i = 0 then ⟨0, 1, 3, 7, 0⟩ else ⟨1, -1, 0, 0, 0⟩) 2
          (fun _ => 0) (fun _ => 5)).getD 0 (0, 0, 0) =
        (((fun i => if i = 0 then (⟨0, 1, 3, 7, 0⟩ : PTNode) else ⟨1, -1, 0, 0, 0⟩) 0).predIdx,
         ((fun i => if i = 0 then (⟨0, 1, 3, 7, 0⟩ : PTNode) else ⟨1, -1, 0, 0, 0⟩) 0).splitVal,
         ((fun i => if i = 0 then (⟨0, 1, 3, 7, 0⟩ : PTNode) else ⟨1, -1, 0, 0, 0⟩) 0).lhId -
           ((fun i => if i = 0 then (⟨0, 1, 3, 7, 0⟩ : PTNode) else ⟨1, -1, 0, 0, 0⟩) 0).id)) ∧
    (¬ 0 < ((fun i => if i = 0 then (⟨0, 1, 3, 7, 0⟩ : PTNode) else ⟨1, -1, 0, 0, 0⟩) 0).lhId →
      (ConsumeNodes (fun i => if i = 0 then ⟨0, 1, 3, 7, 0⟩ else ⟨1, -1, 0, 0, 0⟩) 2
          (fun _ => 0) (fun _ => 5)).getD 0 (0, 0, 0) = (0, 5, 0)) ∧
    (((ConsumeNodes (fun i => if i = 0 then ⟨0, 1, 3, 7, 0⟩ else ⟨1, -1, 0, 0, 0⟩) 2
          (fun _ => 0) (fun _ => 5)).getD 0 (0, 0, 0)).2.2 = 0 ↔
      ¬ 0 < ((fun i => if i = 0 then (⟨0, 1, 3, 7, 0⟩ : PTNode) else ⟨1, -1, 0, 0, 0⟩) 0).lhId) :=
  pretree_consumeNodes_spec
    (fun i => if i = 0 then ⟨0, 1, 3, 7, 0⟩ else ⟨1, -1, 0, 0, 0⟩) 2
    (fun _ => 0) (fun _ => 5) 0 (by decide) (by decide)

/-! ### Height-estimate refinement (PreTree::RefineHeight) -/

/-- Embeds PreTree::RefineHeight: doubles the current height estimate while it
is at most the observed height.  For heightEst = 0 the source loop would not
terminate; that (unreachable) case is mapped to 0 here. -/
def RefineHeight (heightEst height : Nat) : Nat :=
  if heightEst = 0 then 0
  else if heightEst ≤ height then RefineHeight (heightEst <<< 1) height
  else heightEst
termination_by height + 1 - heightEst
decreasing_by
  simp_wf
  rw [Nat.shiftLeft_eq, pow_one]
  omega

/-- Specification-side definition for C8, following the claim's words: the
smallest power of two greater than or equal to h. -/
def smallestPow2GE (h : Nat) : Nat := 2 ^ Nat.clog 2 h

/-- C8 counterexample: with prior height estimate 4 and observed height 4, the
source loop doubles past 4 (the loop runs while the estimate is less than OR
EQUAL to the height) and RefineHeight yields 8, but the smallest power of two
greater than or equal to 4 is 4. -/
theorem pretree_refineHeight_cex :
    RefineHeight 4 4 = 8 ∧ smallestPow2GE 4 = 4 ∧
    RefineHeight 4 4 ≠ smallestPow2GE 4 := by
  have h1 : RefineHeight 4 4 = 8 := by
    simp [RefineHeight, Nat.shiftLeft_eq]
  have h2 : smallestPow2GE 4 = 4 := by
    simp [smallestPow2GE, Nat.clog]
  exact ⟨h1, h2, by rw [h1, h2]; omega⟩

/-- C8 amended: for a positive prior estimate, RefineHeight returns the least
value of the form heightEst * 2^k that is strictly greater than the observed
height: it doubles the prior estimate exactly as often as needed to exceed
(not merely reach) the observed height. -/
theorem pretree_refineHeight_spec (heightEst height : Nat) (h0 : 0 < heightEst) :
    height < RefineHeight heightEst height ∧
    ∃ k, RefineHeight heightEst height = heightEst * 2 ^ k ∧
      ∀ j, height < heightEst * 2 ^ j →
        heightEst * 2 ^ k ≤ heightEst * 2 ^ j := by
  induction heightEst, height using RefineHeight.induct with
  | case1 b =>
    exact absurd h0 (lt_irrefl 0)
  | case2 a b ha hle ih =>
    have hconv : ∀ m, (a <<< 1) * 2 ^ m = a * 2 ^ (m + 1) := by
      intro m
      rw [Nat.shiftLeft_eq, pow_one, pow_succ]
      ring
    have h2 : 0 < a <<< 1 := by
      rw [Nat.shiftLeft_eq, pow_one]
      omega
    have hr : RefineHeight a b = RefineHeight (a <<< 1) b := by
      rw [RefineHeight, if_neg ha, if_pos hle]
    obtain ⟨hlt, k, hk, hmin⟩ := ih h2
    refine ⟨by rw [hr]; exact hlt, k + 1, by rw [hr, hk, hconv], ?_⟩
    intro j hj
    cases j with
    | zero =>
      rw [pow_zero, mul_one] at hj
      omega
    | succ j2 =>
      rw [← hconv k, ← hconv j2]
      exact hmin j2 (by rw [hconv j2]; exact hj)
  | case3 a b ha hle =>
    have hr : RefineHeight a b = a := by
      rw [RefineHeight, if_neg ha, if_neg hle]
    refine ⟨by rw [hr]; omega, 0, by rw [hr, pow_zero, mul_one], ?_⟩
    intro j _
    rw [pow_zero, mul_one]
    exact Nat.le_mul_of_pos_right a (Nat.pos_pow_of_pos j (by omega))

/-- Witness for C8 (amended) at a concrete input: estimate 4, observed height
5; the result exceeds 5, is of the form 4 * 2^k, and is least such. -/
theorem pretree_refineHeight_spec_witness :
    5 < RefineHeight 4 5 ∧
    ∃ k, RefineHeight 4 5 = 4 * 2 ^ k ∧
      ∀ j, 5 < 4 * 2 ^ j → 4 * 2 ^ k ≤ 4 * 2 ^ j :=
  pretree_refineHeight_spec 4 5 (by decide)

/-! ### Pre-tree storage reallocation (pretree.cc) -/

/-- Mutable storage state of a PreTree relevant to CheckStorage / ReNodes /
ReBits: node capacity and watermark, node vector, split-bit capacity,
split-bit watermark and bit vector. -/
structure PreTreeState where
  nodeCount : Nat
  treeHeight : Nat
  nodeVec : Nat → PTNode
  bitLength : Nat
  treeBitOffset : Nat
  treeSplitBits : Nat → Bool

/-- Embeds PreTree::ReNodes: doubles nodeCount and copies
nodeVec[0 .. treeHeight) into the fresh allocation (fresh slots hold
default-constructed nodes). -/
def ReNodes (st : PreTreeState) : PreTreeState :=
  { st with
    nodeCount := st.nodeCount <<< 1,
    nodeVec := fun i => if i < st.treeHeight then st.nodeVec i else default }

/-- Embeds PreTree::ReBits together with the factor branch of
PreTree::BitFactory(bitLength << 1): the fresh length is the doubled old
length, except that BitFactory substitutes nodeCount * maxFacCard when its
argument is zero; bits below treeBitOffset are copied from the old vector and
the rest of the fresh vector is false.  The source calls ReBits only when
factor predictors are present (guarded in CheckStorage). -/
def ReBits (maxFacCard : Nat) (st : PreTreeState) : PreTreeState :=
  { st with
    bitLength :=
      if st.bitLength <<< 1 = 0 then st.nodeCount * maxFacCard
      else st.bitLength <<< 1,
    treeSplitBits := fun i => if i < st.treeBitOffset then st.treeSplitBits i else false }

/-- Embeds PreTree::CheckStorage: reallocates the node vector once when
treeHeight + splitNext + leafNext exceeds nodeCount, and, when factor
predictors are present, reallocates the split-bit vector once when
treeBitOffset + splitNext * maxFacCard exceeds bitLength. -/
def CheckStorage (nPredFac maxFacCard : Nat) (st : PreTreeState)
    (splitNext leafNext : Nat) : PreTreeState :=
  let st1 := if st.nodeCount < st.treeHeight + splitNext + leafNext then ReNodes st else st
  if 0 < nPredFac then
    if st1.bitLength < st1.treeBitOffset + splitNext * maxFacCard then ReBits maxFacCard st1
    else st1
  else st1

/-- Concrete storage state for the C10 counterexample. -/
def c10State : PreTreeState :=
  ⟨4, 1, fun _ => default, 0, 0, fun _ => false⟩

/-- C10 counterexample: CheckStorage doubles the node capacity at most once,
so from nodeCount = 4, treeHeight = 1 with a requested next level of
splitNext + leafNext = 20 + 0 new nodes the post-call capacity is 8, strictly
below treeHeight + splitNext + leafNext = 21. -/
theorem pretree_checkStorage_cex :
    (CheckStorage 0 0 c10State 20 0).nodeCount = 8 ∧
    (CheckStorage 0 0 c10State 20 0).nodeCount <
      c10State.treeHeight + 20 + 0 := by
  constructor
  · rfl
  · decide

/-- C10 amended: ReNodes doubles nodeCount and leaves nodeVec[0 .. treeHeight)
element-for-element unchanged; ReBits, for a nonzero current bit capacity,
doubles bitLength and leaves treeSplitBits[0 .. treeBitOffset) unchanged; and
after CheckStorage(splitNext, leafNext) the capacity satisfies
nodeCount >= treeHeight + splitNext + leafNext, provided the watermark is
within the pre-call capacity and the requested increment splitNext + leafNext
is at most the pre-call capacity (a single doubling covers no more). -/
theorem pretree_storage_spec :
    (∀ st : PreTreeState,
      (ReNodes st).nodeCount = 2 * st.nodeCount ∧
      ∀ i < st.treeHeight, (ReNodes st).nodeVec i = st.nodeVec i) ∧
    (∀ (maxFacCard : Nat) (st : PreTreeState), 0 < st.bitLength →
      (ReBits maxFacCard st).bitLength = 2 * st.bitLength ∧
      ∀ i < st.treeBitOffset, (ReBits maxFacCard st).treeSplitBits i = st.treeSplitBits i) ∧
    (∀ (nPredFac maxFacCard : Nat) (st : PreTreeState) (splitNext leafNext : Nat),
      st.treeHeight ≤ st.nodeCount → splitNext + leafNext ≤ st.nodeCount →
      st.treeHeight + splitNext + leafNext ≤
        (CheckStorage nPredFac maxFacCard st splitNext leafNext).nodeCount) := by
  refine ⟨?_, ?_, ?_⟩
  · intro st
    refine ⟨?_, ?_⟩
    · show st.nodeCount <<< 1 = 2 * st.nodeCount
      rw [Nat.shiftLeft_eq, pow_one]
      ring
    · intro i hi
      show (if i < st.treeHeight then st.nodeVec i else default) = st.nodeVec i
      rw [if_pos hi]
  · intro maxFacCard st hbl
    refine ⟨?_, ?_⟩
    · show (if st.bitLength <<< 1 = 0 then st.nodeCount * maxFacCard
        else st.bitLength <<< 1) = 2 * st.bitLength
      have hne : ¬ (st.bitLength <<< 1 = 0) := by
        rw [Nat.shiftLeft_eq, pow_one]
        omega
      rw [if_neg hne, Nat.shiftLeft_eq, pow_one]
      ring
    · intro i hi
      show (if i < st.treeBitOffset then st.treeSplitBits i else false) = st.treeSplitBits i
      rw [if_pos hi]
  · intro nPredFac maxFacCard st splitNext leafNext hwm hreq
    unfold CheckStorage
    have hnode :
        (if st.nodeCount < st.treeHeight + splitNext + leafNext then ReNodes st else st).nodeCount =
          (if st.nodeCount < st.treeHeight + splitNext + leafNext then st.nodeCount <<< 1
            else st.nodeCount) := by
      by_cases hc : st.nodeCount < st.treeHeight + splitNext + leafNext
      · rw [if_pos hc, if_pos hc]
        rfl
      · rw [if_neg hc, if_neg hc]
    have hbits :
        ∀ st1 : PreTreeState,
          ((if 0 < nPredFac then
              (if st1.bitLength < st1.treeBitOffset + splitNext * maxFacCard then
                ReBits maxFacCard st1 else st1)
            else st1)).nodeCount = st1.nodeCount := by
      intro st1
      by_cases hf : 0 < nPredFac
      · rw [if_pos hf]
        by_cases hb : st1.bitLength < st1.treeBitOffset + splitNext * maxFacCard
        · rw [if_pos hb]
          rfl
        · rw [if_neg hb]
      · rw [if_neg hf]
    rw [hbits]
    rw [hnode]
    by_cases hc : st.nodeCount < st.treeHeight + splitNext + leafNext
    · rw [if_pos hc, Nat.shiftLeft_eq, pow_one]
      omega
    · rw [if_neg hc]
      omega

/-! ### Classification voting (DecTree::Vote, dectree.cc) -/

/-- Embeds the per-row argmax loop of DecTree::Vote: argMax starts at -1 and
popMax at 0; a category's census count must strictly exceed the running
popMax to become the argmax. -/
def voteArgMax (census : Nat → Nat) (ctgWidth : Nat) : Int × Nat :=
  (List.range ctgWidth).foldl
    (fun (acc : Int × Nat) ctg =>
      if acc.2 < census ctg then ((ctg : Int), census ctg) else acc)
    (-1, 0)

/-- Embeds the write phase of DecTree::Vote for one row, on the state
(yCtg, confusion): a write happens only when argMax >= 0; under useBag the
confusion cell rsp + ctgWidth * argMax is incremented (rsp = yCtg[row]),
otherwise yCtg[row] receives argMax. -/
def voteRowStep (census : Nat → Nat → Nat) (ctgWidth : Nat) (useBag : Bool)
    (st : (Nat → Int) × (Int → Nat)) (row : Nat) : (Nat → Int) × (Int → Nat) :=
  if 0 ≤ (voteArgMax (census row) ctgWidth).1 then
    if useBag then
      (st.1,
        Function.update st.2 (st.1 row + ctgWidth * (voteArgMax (census row) ctgWidth).1)
          (st.2 (st.1 row + ctgWidth * (voteArgMax (census row) ctgWidth).1) + 1))
    else
      (Function.update st.1 row (voteArgMax (census row) ctgWidth).1, st.2)
  else st

/-- Embeds the row loop of DecTree::Vote over the whole census. -/
def Vote (census : Nat → Nat → Nat) (nRow ctgWidth : Nat) (useBag : Bool)
    (yCtg0 : Nat → Int) (confusion0 : Int → Nat) : (Nat → Int) × (Int → Nat) :=
  (List.range nRow).foldl (voteRowStep census ctgWidth useBag) (yCtg0, confusion0)

theorem voteArgMax_inv (census : Nat → Nat) (n : Nat) :
    (voteArgMax census n = (-1, 0) ∧ ∀ p < n, census p = 0) ∨
    (∃ m : Nat, voteArgMax census n = ((m : Int), census m) ∧ m < n ∧ 0 < census m ∧
      (∀ q < n, census q ≤ census m) ∧ ∀ q < m, census q < census m) := by
  induction n with
  | zero => exact Or.inl ⟨rfl, fun p hp => absurd hp (Nat.not_lt_zero p)⟩
  | succ n ih =>
    have hstep : voteArgMax census (n + 1) =
        (if (voteArgMax census n).2 < census n then ((n : Int), census n)
         else voteArgMax census n) := by
      unfold voteArgMax
      rw [List.range_succ, List.foldl_append, List.foldl_cons, List.foldl_nil]
    rcases ih with ⟨hres, hall⟩ | ⟨m, hres, hmn, hpos, hmax, hstrict⟩
    · rw [hres] at hstep
      by_cases hcmp : 0 < census n
      · refine Or.inr ⟨n, ?_, Nat.lt_succ_self n, hcmp, ?_, ?_⟩
        · simpa [hcmp] using hstep
        · intro q hq
          rcases Nat.lt_succ_iff_lt_or_eq.mp hq with hq | hq
          · rw [hall q hq]
            omega
          · simp [hq]
        · intro q hq
          rw [hall q hq]
          exact hcmp
      · refine Or.inl ⟨by simpa [hcmp] using hstep, ?_⟩
        intro p hp
        rcases Nat.lt_succ_iff_lt_or_eq.mp hp with hp | hp
        · exact hall p hp
        · subst hp; omega
    · rw [hres] at hstep
      by_cases hcmp : census m < census n
      · refine Or.inr ⟨n, ?_, Nat.lt_succ_self n, lt_of_le_of_lt (Nat.zero_le _) hcmp, ?_, ?_⟩
        · simpa [hcmp] using hstep
        · intro q hq
          rcases Nat.lt_succ_iff_lt_or_eq.mp hq with hq | hq
          · exact le_of_lt (lt_of_le_of_lt (hmax q hq) hcmp)
          · simp [hq]
        · intro q hq
          exact lt_of_le_of_lt (hmax q hq) hcmp
      · refine Or.inr ⟨m, by simpa [hcmp] using hstep, Nat.lt_succ_of_lt hmn, hpos, ?_,
          hstrict⟩
        intro q hq
        rcases Nat.lt_succ_iff_lt_or_eq.mp hq with hq | hq
        · exact hmax q hq
        · subst hq; exact le_of_not_gt hcmp

/-- C9: in classification voting, a row whose census counts are all zero
leaves its argmax at -1 and DecTree::Vote performs no write for that row —
the (yCtg, confusion) state passes through the row's step unchanged, under
useBag and without it alike; a row with at least one vote takes the
lowest-index category among tied maxima. -/
theorem dectree_vote_spec (census : Nat → Nat → Nat) (ctgWidth : Nat) (useBag : Bool)
    (st : (Nat → Int) × (Int → Nat)) (row : Nat) :
    ((∀ ctg < ctgWidth, census row ctg = 0) →
      (voteArgMax (census row) ctgWidth).1 = -1 ∧
      voteRowStep census ctgWidth useBag st row = st) ∧
    (∀ c, c < ctgWidth → 0 < census row c →
      ∃ m : Nat, (voteArgMax (census row) ctgWidth).1 = (m : Int) ∧ m < ctgWidth ∧
        0 < census row m ∧
        (∀ q < ctgWidth, census row q ≤ census row m) ∧
        ∀ q < ctgWidth, census row q = census row m → m ≤ q) := by
  constructor
  · intro hzero
    rcases voteArgMax_inv (census row) ctgWidth with ⟨hres, _⟩ | ⟨m, _, hmn, hpos, _, _⟩
    · have hneg : (voteArgMax (census row) ctgWidth).1 = -1 := by rw [hres]
      refine ⟨hneg, ?_⟩
      unfold voteRowStep
      rw [if_neg (by rw [hneg]; omega)]
    · rw [hzero m hmn] at hpos
      exact absurd hpos (lt_irrefl 0)
  · intro c hc hpos
    rcases voteArgMax_inv (census row) ctgWidth with ⟨_, hall⟩ | ⟨m, hres, hmn, hmpos, hmax, hstrict⟩
    · rw [hall c hc] at hpos
      exact absurd hpos (lt_irrefl 0)
    · refine ⟨m, by rw [hres], hmn, hmpos, hmax, ?_⟩
      intro q _ heq
      by_contra hlt
      have : census row q < census row m := hstrict q (by omega)
      omega

/-! ### Nonterminal replay and extents (SSNode::NonTerminal, splitsig.cc) -/

/-- Modelled from the spec: SamplePred::Replay (samplepred.cc is not among the
repository files).  For every tuple position in [start, end] of the source
buffer, it writes sample2PT[sIdx] = ptId and accumulates the response sum;
posToS gives the sample index held at each buffer position, and the response
sum is not modelled here.  PreTree::Replay (pretree.cc) forwards to it. -/
def Replay (posToS : Nat → Nat) (s2PT : Nat → Int) (start endIdx : Nat)
    (ptId : Int) : Nat → Int :=
  (List.range' start (endIdx + 1 - start)).foldl
    (fun m pos => Function.update m (posToS pos) ptId) s2PT

/-- Embeds the sample2PT effect of SSNode::NonTerminalNum: LH replay over
[start, start + lhIdxCount - 1] with ptLH, then RH replay over
[start + lhIdxCount, end] with ptRH. -/
def nonTerminalNumReplay (posToS : Nat → Nat) (s2PT : Nat → Int)
    (start endIdx lhIdxCount : Nat) (ptLH ptRH : Int) : Nat → Int :=
  Replay posToS (Replay posToS s2PT start (start + lhIdxCount - 1) ptLH)
    (start + lhIdxCount) endIdx ptRH

/-- Embeds the sample2PT effect of SSNode::NonTerminalRun: first a RH replay
of the node's whole extent [start, end], then, for each LH out-slot of the
run table, a LH replay of that run's bounds.  The run table (runset.h/cc is
not among the repository files) is modelled as the list of (runStart, runEnd)
bounds that the RunsLH / RunBounds calls walk. -/
def nonTerminalRunReplay (posToS : Nat → Nat) (s2PT : Nat → Int)
    (start endIdx : Nat) (runs : List (Nat × Nat)) (ptLH ptRH : Int) : Nat → Int :=
  runs.foldl (fun m rb => Replay posToS m rb.1 rb.2 ptLH)
    (Replay posToS s2PT start endIdx ptRH)

/-- Embeds the dispatch of SSNode::NonTerminal on the sample2PT state: the run
branch when setIdx >= 0, the numeric branch otherwise. -/
def nonTerminalReplay (ssn : SSNode) (posToS : Nat → Nat) (s2PT : Nat → Int)
    (start endIdx : Nat) (runs : List (Nat × Nat)) (ptLH ptRH : Int) : Nat → Int :=
  if 0 ≤ ssn.setIdx then nonTerminalRunReplay posToS s2PT start endIdx runs ptLH ptRH
  else nonTerminalNumReplay posToS s2PT start endIdx ssn.lhIdxCount ptLH ptRH

/-- Number of buffer positions in [start, end] whose sample's pre-tree
assignment equals pt. -/
def assignCount (m : Nat → Int) (posToS : Nat → Nat) (start endIdx : Nat)
    (pt : Int) : Nat :=
  (List.range' start (endIdx + 1 - start)).countP fun pos => decide (m (posToS pos) = pt)

/-- A buffer position lies in one of the run intervals. -/
def inRuns (runs : List (Nat × Nat)) (pos : Nat) : Prop :=
  ∃ rb ∈ runs, rb.1 ≤ pos ∧ pos ≤ rb.2

instance (runs : List (Nat × Nat)) (pos : Nat) : Decidable (inRuns runs pos) :=
  inferInstanceAs (Decidable (∃ rb ∈ runs, rb.1 ≤ pos ∧ pos ≤ rb.2))

/-- Total length of the run intervals (the LH index extent of a run split). -/
def runsLen (runs : List (Nat × Nat)) : Nat :=
  (runs.map fun rb => rb.2 + 1 - rb.1).sum

theorem foldl_update_const (posToS : Nat → Nat) (pt : Int) (L : List Nat)
    (m : Nat → Int) (s : Nat) :
    L.foldl (fun acc pos => Function.update acc (posToS pos) pt) m s =
      if ∃ pos ∈ L, posToS pos = s then pt else m s := by
  induction L generalizing m with
  | nil => simp
  | cons p L ih =>
    rw [List.foldl_cons, ih]
    by_cases hmem : ∃ pos ∈ L, posToS pos = s
    · obtain ⟨pos, hp, hs⟩ := hmem
      rw [if_pos ⟨pos, hp, hs⟩, if_pos ⟨pos, List.mem_cons_of_mem p hp, hs⟩]
    · rw [if_neg hmem, Function.update_apply]
      by_cases hp : s = posToS p
      · rw [if_pos hp, if_pos ⟨p, List.mem_cons_self p L, hp.symm⟩]
      · have hnot : ¬ ∃ pos ∈ p :: L, posToS pos = s := by
          rintro ⟨pos, hpos, hs⟩
          rcases List.mem_cons.mp hpos with h | h
          · exact hp (by rw [← hs, h])
          · exact hmem ⟨pos, h, hs⟩
        rw [if_neg hp, if_neg hnot]

theorem replay_hit (posToS : Nat → Nat) (m : Nat → Int) (a b : Nat)
    (pt : Int) (s : Nat) (h : ∃ pos, a ≤ pos ∧ pos ≤ b ∧ posToS pos = s) :
    Replay posToS m a b pt s = pt := by
  unfold Replay
  rw [foldl_update_const]
  obtain ⟨pos, h1, h2, h3⟩ := h
  rw [if_pos ⟨pos, List.mem_range'_1.mpr ⟨h1, by omega⟩, h3⟩]

theorem replay_miss (posToS : Nat → Nat) (m : Nat → Int) (a b : Nat)
    (pt : Int) (s : Nat) (h : ¬ ∃ pos, a ≤ pos ∧ pos ≤ b ∧ posToS pos = s) :
    Replay posToS m a b pt s = m s := by
  unfold Replay
  rw [foldl_update_const]
  have hnot : ¬ ∃ pos ∈ List.range' a (b + 1 - a), posToS pos = s := by
    rintro ⟨pos, hmem, hs⟩
    rw [List.mem_range'_1] at hmem
    exact h ⟨pos, hmem.1, by omega, hs⟩
  rw [if_neg hnot]

theorem runFold_miss (posToS : Nat → Nat) (runs : List (Nat × Nat)) (pt : Int)
    (m : Nat → Int) (s : Nat)
    (h : ¬ ∃ rb ∈ runs, ∃ pos, rb.1 ≤ pos ∧ pos ≤ rb.2 ∧ posToS pos = s) :
    runs.foldl (fun acc rb => Replay posToS acc rb.1 rb.2 pt) m s = m s := by
  induction runs generalizing m with
  | nil => rfl
  | cons rb rest ih =>
    rw [List.foldl_cons]
    have hrest : ¬ ∃ rb2 ∈ rest, ∃ pos, rb2.1 ≤ pos ∧ pos ≤ rb2.2 ∧ posToS pos = s := by
      rintro ⟨rb2, hrb2, hex⟩
      exact h ⟨rb2, List.mem_cons_of_mem rb hrb2, hex⟩
    rw [ih _ hrest]
    apply replay_miss
    intro hex
    exact h ⟨rb, List.mem_cons_self rb rest, hex⟩

theorem runFold_hit (posToS : Nat → Nat) (runs : List (Nat × Nat)) (pt : Int)
    (m : Nat → Int) (s : Nat)
    (h : ∃ rb ∈ runs, ∃ pos, rb.1 ≤ pos ∧ pos ≤ rb.2 ∧ posToS pos = s) :
    runs.foldl (fun acc rb => Replay posToS acc rb.1 rb.2 pt) m s = pt := by
  induction runs generalizing m with
  | nil =>
    obtain ⟨rb, hrb, _⟩ := h
    exact absurd hrb (List.not_mem_nil rb)
  | cons rb rest ih =>
    rw [List.foldl_cons]
    by_cases hrest : ∃ rb2 ∈ rest, ∃ pos, rb2.1 ≤ pos ∧ pos ≤ rb2.2 ∧ posToS pos = s
    · exact ih _ hrest
    · have hhead : ∃ pos, rb.1 ≤ pos ∧ pos ≤ rb.2 ∧ posToS pos = s := by
        obtain ⟨rb2, hrb2, hex⟩ := h
        rcases List.mem_cons.mp hrb2 with heq | hmem
        · exact heq ▸ hex
        · exact absurd ⟨rb2, hmem, hex⟩ hrest
      rw [runFold_miss posToS rest pt _ s hrest]
      exact replay_hit posToS m rb.1 rb.2 pt s hhead

theorem countP_interval (start extent a b : Nat) (ha : start ≤ a) (hab : a ≤ b)
    (hb : b < start + extent) :
    (List.range' start extent).countP (fun pos => decide (a ≤ pos ∧ pos ≤ b)) =
      b + 1 - a := by
  have h1 : List.range' start extent =
      List.range' start (a - start) ++ List.range' a (extent - (a - start)) := by
    have h := List.range'_append start (a - start) (extent - (a - start)) 1
    rw [one_mul] at h
    have hs : start + (a - start) = a := by omega
    rw [hs] at h
    have hn : extent - (a - start) + (a - start) = extent := by omega
    rw [hn] at h
    exact h.symm
  have h2 : List.range' a (extent - (a - start)) =
      List.range' a (b + 1 - a) ++
        List.range' (b + 1) (extent - (a - start) - (b + 1 - a)) := by
    have h := List.range'_append a (b + 1 - a) (extent - (a - start) - (b + 1 - a)) 1
    rw [one_mul] at h
    have hs : a + (b + 1 - a) = b + 1 := by omega
    rw [hs] at h
    have hn : extent - (a - start) - (b + 1 - a) + (b + 1 - a) = extent - (a - start) := by
      omega
    rw [hn] at h
    exact h.symm
  rw [h1, h2, List.countP_append, List.countP_append]
  have c1 : (List.range' start (a - start)).countP
      (fun pos => decide (a ≤ pos ∧ pos ≤ b)) = 0 := by
    rw [List.countP_eq_zero]
    intro x hx
    rw [List.mem_range'_1] at hx
    simp only [decide_eq_true_eq]
    omega
  have c2 : (List.range' a (b + 1 - a)).countP
      (fun pos => decide (a ≤ pos ∧ pos ≤ b)) = b + 1 - a := by
    rw [List.countP_eq_length.mpr, List.length_range']
    intro x hx
    rw [List.mem_range'_1] at hx
    simp only [decide_eq_true_eq]
    omega
  have c3 : (List.range' (b + 1) (extent - (a - start) - (b + 1 - a))).countP
      (fun pos => decide (a ≤ pos ∧ pos ≤ b)) = 0 := by
    rw [List.countP_eq_zero]
    intro x hx
    rw [List.mem_range'_1] at hx
    simp only [decide_eq_true_eq]
    omega
  rw [c1, c2, c3]
  omega

theorem countP_or_split (l : List Nat) (p q : Nat → Prop) [DecidablePred p]
    [DecidablePred q] (h : ∀ x ∈ l, ¬(p x ∧ q x)) :
    l.countP (fun x => decide (p x ∨ q x)) =
      l.countP (fun x => decide (p x)) + l.countP (fun x => decide (q x)) := by
  induction l with
  | nil => rfl
  | cons x l ih =>
    rw [List.countP_cons, List.countP_cons, List.countP_cons,
      ih (fun y hy => h y (List.mem_cons_of_mem x hy))]
    have hx := h x (List.mem_cons_self x l)
    by_cases hp : p x
    · by_cases hq : q x
      · exact absurd ⟨hp, hq⟩ hx
      · rw [if_pos (decide_eq_true (Or.inl hp)), if_pos (decide_eq_true hp),
          if_neg (by rw [decide_eq_false hq]; exact Bool.false_ne_true)]
        omega
    · by_cases hq : q x
      · rw [if_pos (decide_eq_true (Or.inr hq)), if_pos (decide_eq_true hq),
          if_neg (by rw [decide_eq_false hp]; exact Bool.false_ne_true)]
        omega
      · rw [if_neg (by rw [decide_eq_false (fun hor => hor.elim hp hq)]; exact Bool.false_ne_true),
          if_neg (by rw [decide_eq_false hp]; exact Bool.false_ne_true),
          if_neg (by rw [decide_eq_false hq]; exact Bool.false_ne_true)]
        omega

theorem countP_add_countP_not (l : List Nat) (p : Nat → Prop) [DecidablePred p] :
    l.countP (fun x => decide (p x)) + l.countP (fun x => decide (¬ p x)) =
      l.length := by
  induction l with
  | nil => rfl
  | cons x l ih =>
    rw [List.countP_cons, List.countP_cons, List.length_cons]
    by_cases hp : p x
    · have h1 : decide (p x) = true := decide_eq_true hp
      have h2 : decide (¬ p x) = false := decide_eq_false (fun h => h hp)
      rw [if_pos h1, if_neg (by rw [h2]; exact Bool.false_ne_true)]
      omega
    · have h1 : decide (p x) = false := decide_eq_false hp
      have h2 : decide (¬ p x) = true := decide_eq_true hp
      rw [if_neg (by rw [h1]; exact Bool.false_ne_true), if_pos h2]
      omega

theorem countP_inRuns (start extent : Nat) (runs : List (Nat × Nat))
    (hcont : ∀ rb ∈ runs, start ≤ rb.1 ∧ rb.1 ≤ rb.2 ∧ rb.2 < start + extent)
    (hdisj : runs.Pairwise (fun rb1 rb2 => rb1.2 < rb2.1 ∨ rb2.2 < rb1.1)) :
    (List.range' start extent).countP (fun pos => decide (inRuns runs pos)) =
      runsLen runs := by
  induction runs with
  | nil =>
    rw [List.countP_eq_zero.mpr]
    · rfl
    · intro x _
      simp [inRuns]
  | cons rb rest ih =>
    have hcongr : ∀ x ∈ List.range' start extent,
        (decide (inRuns (rb :: rest) x) = true) ↔
          (decide ((rb.1 ≤ x ∧ x ≤ rb.2) ∨ inRuns rest x) = true) := by
      intro x _
      simp only [decide_eq_true_eq]
      constructor
      · rintro ⟨rb2, hrb2, hle⟩
        rcases List.mem_cons.mp hrb2 with h | h
        · exact Or.inl (h ▸ hle)
        · exact Or.inr ⟨rb2, h, hle⟩
      · rintro (h | ⟨rb2, hrb2, hle⟩)
        · exact ⟨rb, List.mem_cons_self rb rest, h⟩
        · exact ⟨rb2, List.mem_cons_of_mem rb hrb2, hle⟩
    rw [List.countP_congr hcongr, countP_or_split _ _ _ ?_]
    · have hrb := hcont rb (List.mem_cons_self rb rest)
      rw [countP_interval start extent rb.1 rb.2 hrb.1 hrb.2.1 hrb.2.2,
        ih (fun r hr => hcont r (List.mem_cons_of_mem rb hr))
          (List.pairwise_cons.mp hdisj).2]
      simp [runsLen]
    · intro x _
      rintro ⟨hin, rb2, hrb2, h2⟩
      have hd := (List.pairwise_cons.mp hdisj).1 rb2 hrb2
      omega

/-- C6: for a pre-tree node made nonterminal by SSNode::NonTerminal over the
index extent [start, end]: after the replay, every sample in the extent is
assigned either the left child id ptLH or the right child id ptRH in
sample2PT, the LH and RH index extents sum to the node extent, and both are
at least 1.  The hypotheses state the split invariants the level pass
guarantees: distinct child ids, per-predictor uniqueness of sample indices
over the extent, and admissibility of the winning split (a numeric split has
1 <= lhIdxCount and start + lhIdxCount <= end; a run split has a nonempty run
list of disjoint in-extent runs covering at most end - start positions). -/
theorem ssnode_nonTerminal_extents (ssn : SSNode) (posToS : Nat → Nat)
    (s2PT : Nat → Int) (start endIdx : Nat) (runs : List (Nat × Nat))
    (ptLH ptRH : Int)
    (hne : ptLH ≠ ptRH)
    (hinj : ∀ p q, start ≤ p → p ≤ endIdx → start ≤ q → q ≤ endIdx →
      posToS p = posToS q → p = q)
    (hnum : ssn.setIdx < 0 →
      1 ≤ ssn.lhIdxCount ∧ start + ssn.lhIdxCount ≤ endIdx)
    (hrun : 0 ≤ ssn.setIdx →
      runs ≠ [] ∧
      (∀ rb ∈ runs, start ≤ rb.1 ∧ rb.1 ≤ rb.2 ∧ rb.2 ≤ endIdx) ∧
      runs.Pairwise (fun rb1 rb2 => rb1.2 < rb2.1 ∨ rb2.2 < rb1.1) ∧
      runsLen runs ≤ endIdx - start) :
    (∀ pos, start ≤ pos → pos ≤ endIdx →
      nonTerminalReplay ssn posToS s2PT start endIdx runs ptLH ptRH (posToS pos) = ptLH ∨
      nonTerminalReplay ssn posToS s2PT start endIdx runs ptLH ptRH (posToS pos) = ptRH) ∧
    assignCount (nonTerminalReplay ssn posToS s2PT start endIdx runs ptLH ptRH)
        posToS start endIdx ptLH +
      assignCount (nonTerminalReplay ssn posToS s2PT start endIdx runs ptLH ptRH)
        posToS start endIdx ptRH = endIdx + 1 - start ∧
    1 ≤ assignCount (nonTerminalReplay ssn posToS s2PT start endIdx runs ptLH ptRH)
        posToS start endIdx ptLH ∧
    1 ≤ assignCount (nonTerminalReplay ssn posToS s2PT start endIdx runs ptLH ptRH)
        posToS start endIdx ptRH := by
  by_cases hset : 0 ≤ ssn.setIdx
  · -- run branch
    obtain ⟨hne0, hcont, hdisj, hlen⟩ := hrun hset
    have hm : nonTerminalReplay ssn posToS s2PT start endIdx runs ptLH ptRH =
        nonTerminalRunReplay posToS s2PT start endIdx runs ptLH ptRH := by
      unfold nonTerminalReplay
      rw [if_pos hset]
    obtain ⟨rb0, hrb0⟩ := List.exists_mem_of_ne_nil runs hne0
    have hse : start ≤ endIdx := by
      have := hcont rb0 hrb0
      omega
    have hval : ∀ pos, start ≤ pos → pos ≤ endIdx →
        nonTerminalRunReplay posToS s2PT start endIdx runs ptLH ptRH (posToS pos) =
          if inRuns runs pos then ptLH else ptRH := by
      intro pos h1 h2
      unfold nonTerminalRunReplay
      by_cases hin : inRuns runs pos
      · rw [if_pos hin]
        obtain ⟨rb, hrb, hb1, hb2⟩ := hin
        exact runFold_hit posToS runs ptLH _ _ ⟨rb, hrb, pos, hb1, hb2, rfl⟩
      · have hnot : ¬ ∃ rb ∈ runs, ∃ pos2, rb.1 ≤ pos2 ∧ pos2 ≤ rb.2 ∧
            posToS pos2 = posToS pos := by
          rintro ⟨rb, hrb, pos2, hp1, hp2, hps⟩
          have hc := hcont rb hrb
          have : pos2 = pos := hinj pos2 pos (by omega) (by omega) h1 h2 hps
          exact hin ⟨rb, hrb, by omega, by omega⟩
        rw [if_neg hin, runFold_miss posToS runs ptLH _ _ hnot]
        exact replay_hit posToS s2PT start endIdx ptRH _ ⟨pos, h1, h2, rfl⟩
    have hcongrLH : ∀ x ∈ List.range' start (endIdx + 1 - start),
        (decide (nonTerminalRunReplay posToS s2PT start endIdx runs ptLH ptRH
          (posToS x) = ptLH) = true) ↔ (decide (inRuns runs x) = true) := by
      intro x hx
      rw [List.mem_range'_1] at hx
      rw [decide_eq_true_eq, decide_eq_true_eq, hval x hx.1 (by omega)]
      by_cases hin : inRuns runs x
      · simp [hin]
      · simp [hin, (Ne.symm hne)]
    have hcongrRH : ∀ x ∈ List.range' start (endIdx + 1 - start),
        (decide (nonTerminalRunReplay posToS s2PT start endIdx runs ptLH ptRH
          (posToS x) = ptRH) = true) ↔ (decide (¬ inRuns runs x) = true) := by
      intro x hx
      rw [List.mem_range'_1] at hx
      rw [decide_eq_true_eq, decide_eq_true_eq, hval x hx.1 (by omega)]
      by_cases hin : inRuns runs x
      · simp [hin, hne]
      · simp [hin]
    have hLH : assignCount (nonTerminalRunReplay posToS s2PT start endIdx runs ptLH ptRH)
        posToS start endIdx ptLH = runsLen runs := by
      unfold assignCount
      rw [List.countP_congr hcongrLH]
      exact countP_inRuns start (endIdx + 1 - start) runs
        (fun rb hrb => by have := hcont rb hrb; omega) hdisj
    have hsum : assignCount (nonTerminalRunReplay posToS s2PT start endIdx runs ptLH ptRH)
          posToS start endIdx ptLH +
        assignCount (nonTerminalRunReplay posToS s2PT start endIdx runs ptLH ptRH)
          posToS start endIdx ptRH = endIdx + 1 - start := by
      unfold assignCount
      rw [List.countP_congr hcongrLH, List.countP_congr hcongrRH,
        countP_add_countP_not, List.length_range']
    rw [hm]
    refine ⟨?_, hsum, ?_, ?_⟩
    · intro pos h1 h2
      rw [hval pos h1 h2]
      by_cases hin : inRuns runs pos
      · exact Or.inl (by rw [if_pos hin])
      · exact Or.inr (by rw [if_neg hin])
    · rw [hLH]
      have hmem : rb0.2 + 1 - rb0.1 ∈ runs.map fun rb => rb.2 + 1 - rb.1 :=
        List.mem_map_of_mem _ hrb0
      have h1 : rb0.2 + 1 - rb0.1 ≤ runsLen runs :=
        List.single_le_sum (fun x _ => Nat.zero_le x) _ hmem
      have := hcont rb0 hrb0
      omega
    · have := hLH
      omega
  · -- numeric branch
    obtain ⟨hlh, hle⟩ := hnum (by omega)
    have hm : nonTerminalReplay ssn posToS s2PT start endIdx runs ptLH ptRH =
        nonTerminalNumReplay posToS s2PT start endIdx ssn.lhIdxCount ptLH ptRH := by
      unfold nonTerminalReplay
      rw [if_neg hset]
    have hval : ∀ pos, start ≤ pos → pos ≤ endIdx →
        nonTerminalNumReplay posToS s2PT start endIdx ssn.lhIdxCount ptLH ptRH
            (posToS pos) =
          if pos < start + ssn.lhIdxCount then ptLH else ptRH := by
      intro pos h1 h2
      unfold nonTerminalNumReplay
      by_cases hpos : pos < start + ssn.lhIdxCount
      · have hnot : ¬ ∃ pos2, start + ssn.lhIdxCount ≤ pos2 ∧ pos2 ≤ endIdx ∧
            posToS pos2 = posToS pos := by
          rintro ⟨pos2, hp1, hp2, hps⟩
          have : pos2 = pos := hinj pos2 pos (by omega) hp2 h1 h2 hps
          omega
        rw [if_pos hpos, replay_miss posToS _ (start + ssn.lhIdxCount) endIdx ptRH _ hnot]
        exact replay_hit posToS s2PT start (start + ssn.lhIdxCount - 1) ptLH _
          ⟨pos, h1, by omega, rfl⟩
      · rw [if_neg hpos]
        exact replay_hit posToS _ (start + ssn.lhIdxCount) endIdx ptRH _
          ⟨pos, by omega, h2, rfl⟩
    have hcongrLH : ∀ x ∈ List.range' start (endIdx + 1 - start),
        (decide (nonTerminalNumReplay posToS s2PT start endIdx ssn.lhIdxCount ptLH ptRH
          (posToS x) = ptLH) = true) ↔
          (decide (start ≤ x ∧ x ≤ start + ssn.lhIdxCount - 1) = true) := by
      intro x hx
      rw [List.mem_range'_1] at hx
      rw [decide_eq_true_eq, decide_eq_true_eq, hval x hx.1 (by omega)]
      by_cases hin : x < start + ssn.lhIdxCount
      · rw [if_pos hin]
        simp only [true_iff, eq_self_iff_true]
        omega
      · rw [if_neg hin]
        constructor
        · intro h
          exact absurd h (Ne.symm hne)
        · intro h
          omega
    have hcongrRH : ∀ x ∈ List.range' start (endIdx + 1 - start),
        (decide (nonTerminalNumReplay posToS s2PT start endIdx ssn.lhIdxCount ptLH ptRH
          (posToS x) = ptRH) = true) ↔
          (decide (¬ (start ≤ x ∧ x ≤ start + ssn.lhIdxCount - 1)) = true) := by
      intro x hx
      rw [List.mem_range'_1] at hx
      rw [decide_eq_true_eq, decide_eq_true_eq, hval x hx.1 (by omega)]
      by_cases hin : x < start + ssn.lhIdxCount
      · rw [if_pos hin]
        constructor
        · intro h
          exact absurd h hne
        · intro h
          exact absurd ⟨hx.1, by omega⟩ h
      · rw [if_neg hin]
        simp only [true_iff, eq_self_iff_true]
        omega
    have hLH : assignCount
        (nonTerminalNumReplay posToS s2PT start endIdx ssn.lhIdxCount ptLH ptRH)
        posToS start endIdx ptLH = ssn.lhIdxCount := by
      unfold assignCount
      rw [List.countP_congr hcongrLH,
        countP_interval start (endIdx + 1 - start) start (start + ssn.lhIdxCount - 1)
          (le_refl start) (by omega) (by omega)]
      omega
    have hsum : assignCount
          (nonTerminalNumReplay posToS s2PT start endIdx ssn.lhIdxCount ptLH ptRH)
          posToS start endIdx ptLH +
        assignCount
          (nonTerminalNumReplay posToS s2PT start endIdx ssn.lhIdxCount ptLH ptRH)
          posToS start endIdx ptRH = endIdx + 1 - start := by
      unfold assignCount
      rw [List.countP_congr hcongrLH, List.countP_congr hcongrRH,
        countP_add_countP_not, List.length_range']
    rw [hm]
    refine ⟨?_, hsum, ?_, ?_⟩
    · intro pos h1 h2
      rw [hval pos h1 h2]
      by_cases hin : pos < start + ssn.lhIdxCount
      · exact Or.inl (by rw [if_pos hin])
      · exact Or.inr (by rw [if_neg hin])
    · rw [hLH]
      exact hlh
    · have := hLH
      omega

/-- Witness for C6 at a concrete input: a numeric split (setIdx = -1) over
extent [0, 2] with lhIdxCount = 1, identity position-to-sample map, left
child 1, right child 2. -/
theorem ssnode_nonTerminal_extents_witness :
    (∀ pos, 0 ≤ pos → pos ≤ 2 →
      nonTerminalReplay ⟨0, -1, 0, 1, 0⟩ (fun p => p) (fun _ => 0) 0 2 [] 1 2
          ((fun p => p) pos) = 1 ∨
      nonTerminalReplay ⟨0, -1, 0, 1, 0⟩ (fun p => p) (fun _ => 0) 0 2 [] 1 2
          ((fun p => p) pos) = 2) ∧
    assignCount (nonTerminalReplay ⟨0, -1, 0, 1, 0⟩ (fun p => p) (fun _ => 0) 0 2 [] 1 2)
        (fun p => p) 0 2 1 +
      assignCount (nonTerminalReplay ⟨0, -1, 0, 1, 0⟩ (fun p => p) (fun _ => 0) 0 2 [] 1 2)
        (fun p => p) 0 2 2 = 2 + 1 - 0 ∧
    1 ≤ assignCount (nonTerminalReplay ⟨0, -1, 0, 1, 0⟩ (fun p => p) (fun _ => 0) 0 2 [] 1 2)
        (fun p => p) 0 2 1 ∧
    1 ≤ assignCount (nonTerminalReplay ⟨0, -1, 0, 1, 0⟩ (fun p => p) (fun _ => 0) 0 2 [] 1 2)
        (fun p => p) 0 2 2 :=
  ssnode_nonTerminal_extents ⟨0, -1, 0, 1, 0⟩ (fun p => p) (fun _ => 0) 0 2 [] 1 2
    (by decide) (fun p q _ _ _ _ h => h) (fun _ => by decide)
    (fun h => absurd h (by decide))

end Arborist
